import Mathlib

/-!
Shallow embedding of the `permutation-iterator` library (`src/lib.rs`).

Machine integers (`u8`, `u64`, `u128`) are modelled as `Nat`, with explicit
`% 2 ^ 64` / `% 2 ^ 128` truncation inserted exactly where the Rust code
performs an `as` cast.  Byte slices (`[u8; N]`) are modelled as `List Nat`.
The fallible constructor (which calls `Option::unwrap` on `integer_log2`)
returns `Option` instead of panicking.

The WyHash keyed hash is an external crate, consumed by the library as an
opaque deterministic function of the written byte stream; it is modelled as
an explicit parameter `hash : List Nat → Nat` producing a 64-bit value
(truncated with `% 2 ^ 64` where the code uses `Hasher::finish`, which
returns a `u64`).  Likewise the thread RNG used by `Permutor::new` /
`FeistelNetwork::new` is an external collaborator; the 32 random bytes it
supplies are modelled as an explicit argument.
-/

/-- Embedding of `u8_to_1slice`: a one-byte slice holding the input
(the Rust argument has type `u8`, hence the `% 256`). -/
def u8_to_1slice (input : Nat) : List Nat :=
  [input % 256]

/-- Embedding of `u64_to_8slice`: the eight mask-and-shift byte extractions
of the source, in index order `result[0], …, result[7]`. -/
def u64_to_8slice (input : Nat) : List Nat :=
  [(input &&& 0xFF00000000000000) >>> 56,
   (input &&& 0x00FF000000000000) >>> 48,
   (input &&& 0xFF0000000000) >>> 40,
   (input &&& 0x00FF00000000) >>> 32,
   (input &&& 0xFF000000) >>> 24,
   (input &&& 0x00FF0000) >>> 16,
   (input &&& 0xFF00) >>> 8,
   input &&& 0xFF]

/-- Embedding of `u64_to_32slice`: the 8-byte encoding cloned into the first
8 cells of a zeroed 32-byte buffer. -/
def u64_to_32slice (input : Nat) : List Nat :=
  u64_to_8slice input ++ List.replicate 24 0

/-- Loop body of `integer_log2` for nonzero input: the number of `>>= 1`
steps needed to reach zero (`result` in the source). -/
def shiftCount (n : Nat) : Nat :=
  if h : n = 0 then 0
  else
    have : n >>> 1 < n := by
      rw [Nat.shiftRight_eq_div_pow]
      exact Nat.div_lt_self (Nat.pos_of_ne_zero h) (by norm_num)
    shiftCount (n >>> 1) + 1
termination_by n

/-- Embedding of `integer_log2` (instantiated at the `u128` used by the
library): `None` on zero, otherwise the shift count. -/
def integer_log2 (input : Nat) : Option Nat :=
  if input = 0 then none else some (shiftCount input)

/-- Embedding of the `right_mask` construction loop in
`FeistelNetwork::new_with_slice_key`: `for i in 0..half_width { right_mask |= 1 << i }`. -/
def maskFor (half_width : Nat) : Nat :=
  (List.range half_width).foldl (fun acc i => acc ||| (1 <<< i)) 0

/-- Embedding of the `FeistelNetwork` struct. -/
structure FeistelNetwork where
  half_width : Nat
  right_mask : Nat
  left_mask : Nat
  key : List Nat
  rounds : Nat
deriving DecidableEq

/-- Embedding of `FeistelNetwork::new_with_slice_key`.  The source calls
`integer_log2(max_value).unwrap()`, which panics on zero; the panic is
modelled as `none`. -/
def FeistelNetwork.new_with_slice_key (max_value : Nat) (key : List Nat) :
    Option FeistelNetwork :=
  match integer_log2 max_value with
  | none => none
  | some w0 =>
    let width := if w0 % 2 != 0 then w0 + 1 else w0
    let half_width := width / 2
    let right_mask := maskFor half_width
    let left_mask := right_mask <<< half_width
    some ⟨half_width, right_mask, left_mask, key, 32⟩

/-- Embedding of `FeistelNetwork::new`.  The 32 bytes drawn from
`rand::thread_rng()` are an external collaborator, modelled as the explicit
argument `randomKey`. -/
def FeistelNetwork.new (max : Nat) (randomKey : List Nat) : Option FeistelNetwork :=
  FeistelNetwork.new_with_slice_key max randomKey

/-- Embedding of `FeistelNetwork::round_function`.  The WyHash hasher is fed
the key, the right half as 8 big-endian bytes, the round index byte, and the
key again; `hasher.finish()` returns a `u64` (hence `% 2 ^ 64`), which is
then masked.  `right as u64` is the `% 2 ^ 64` on the right half. -/
def round_function (hash : List Nat → Nat) (right round : Nat) (key : List Nat)
    (mask : Nat) : Nat :=
  let right_bytes := u64_to_8slice (right % 2 ^ 64)
  let round_bytes := u8_to_1slice round
  (hash (key ++ right_bytes ++ round_bytes ++ key)) % 2 ^ 64 &&& mask

/-- The 32-round loop of `FeistelNetwork::permute`, acting on the
`(left, right)` pair: each round maps `(l, r)` to `(r, l ^^^ f(r, i))`. -/
def feistelRounds (hash : List Nat → Nat) (fn : FeistelNetwork) (lr : Nat × Nat) :
    Nat × Nat :=
  (List.range fn.rounds).foldl
    (fun lr i => (lr.2, lr.1 ^^^ round_function hash lr.2 i fn.key fn.right_mask)) lr

/-- Embedding of `FeistelNetwork::permute`: split the input with the masks,
run the rounds, recombine, and mask the result to the active width. -/
def FeistelNetwork.permute (hash : List Nat → Nat) (fn : FeistelNetwork)
    (input : Nat) : Nat :=
  let left := (input &&& fn.left_mask) >>> fn.half_width
  let right := input &&& fn.right_mask
  let lr := feistelRounds hash fn (left, right)
  ((lr.1 <<< fn.half_width) ||| lr.2) &&& (fn.left_mask ||| fn.right_mask)

/-- Embedding of the `Permutor` struct. -/
structure Permutor where
  feistel : FeistelNetwork
  max : Nat
  current : Nat
  values_returned : Nat
deriving DecidableEq

/-- Embedding of `Permutor::new_with_slice_key`. -/
def Permutor.new_with_slice_key (max : Nat) (key : List Nat) : Option Permutor :=
  match FeistelNetwork.new_with_slice_key max key with
  | none => none
  | some fn => some ⟨fn, max, 0, 0⟩

/-- Embedding of `Permutor::new_with_u64_key`: the `u64` key is embedded into
a 32-byte buffer with `u64_to_32slice`. -/
def Permutor.new_with_u64_key (max : Nat) (key : Nat) : Option Permutor :=
  let key32 := u64_to_32slice key
  match FeistelNetwork.new_with_slice_key max key32 with
  | none => none
  | some fn => some ⟨fn, max, 0, 0⟩

/-- Embedding of `Permutor::new`; the random 32-byte key supplied by the
thread RNG is the explicit argument `randomKey`. -/
def Permutor.new (max : Nat) (randomKey : List Nat) : Option Permutor :=
  match FeistelNetwork.new max randomKey with
  | none => none
  | some fn => some ⟨fn, max, 0, 0⟩

/-- One call of `<Permutor as Iterator>::next`, with explicit fuel bounding
the number of iterations of the rejection `while` loop.  Each iteration
permutes `current`, unconditionally increments it, and either rejects the
candidate (`continue`) or emits it. -/
def nextGo (hash : List Nat → Nat) : Nat → Permutor → Option (Nat × Permutor)
  | 0, _ => none
  | fuel + 1, p =>
    if p.values_returned < p.max then
      let next := FeistelNetwork.permute hash p.feistel p.current
      let p1 : Permutor := { p with current := p.current + 1 }
      if next ≥ p.max then nextGo hash fuel p1
      else some (next, { p1 with values_returned := p1.values_returned + 1 })
    else none

/-- Embedding of `<Permutor as Iterator>::next`.  The fuel
`2 ^ width + 1 - current` covers every remaining iteration of the loop: while
values remain, an in-range candidate occurs before `current` reaches
`2 ^ width` (proved below), so the fuel is never exhausted on reachable
states. -/
def pnext (hash : List Nat → Nat) (p : Permutor) : Option (Nat × Permutor) :=
  nextGo hash (2 ^ (2 * p.feistel.half_width) + 1 - p.current) p

/-- First `k` values produced by repeatedly calling `next` on a `Permutor`. -/
def collect (hash : List Nat → Nat) : Nat → Permutor → List Nat
  | 0, _ => []
  | k + 1, p =>
    match pnext hash p with
    | none => []
    | some (v, p') => v :: collect hash k p'

/-- Iterator state after `k` calls to `next` (a call returning `None` leaves
the state unchanged). -/
def stateAfter (hash : List Nat → Nat) : Nat → Permutor → Permutor
  | 0, p => p
  | k + 1, p =>
    match pnext hash p with
    | none => p
    | some (_, p') => stateAfter hash k p'

/-- Embedding of the `RandomPairPermutor` struct. -/
structure RandomPairPermutor where
  permutor : Permutor
  max2 : Nat
deriving DecidableEq

/-- Embedding of `RandomPairPermutor::new`: the inner `Permutor` is built
over `max1 * max2` (computed in `u128`, so no overflow) with a random key,
modelled as the explicit argument `randomKey`. -/
def RandomPairPermutor.new (max1 max2 : Nat) (randomKey : List Nat) :
    Option RandomPairPermutor :=
  let max : Nat := max1 * max2
  match Permutor.new max randomKey with
  | none => none
  | some p => some ⟨p, max2⟩

/-- Embedding of `<RandomPairPermutor as Iterator>::next`: the inner value is
cast to `u64` (`% 2 ^ 64`) and split with division and remainder by `max2`. -/
def rpnext (hash : List Nat → Nat) (rp : RandomPairPermutor) :
    Option ((Nat × Nat) × RandomPairPermutor) :=
  match pnext hash rp.permutor with
  | some (value, p') =>
    let first := value % 2 ^ 64 / rp.max2
    let second := value % 2 ^ 64 % rp.max2
    some ((first, second), ⟨p', rp.max2⟩)
  | none => none

/-- First `k` pairs produced by a `RandomPairPermutor`. -/
def rpCollect (hash : List Nat → Nat) : Nat → RandomPairPermutor → List (Nat × Nat)
  | 0, _ => []
  | k + 1, rp =>
    match rpnext hash rp with
    | none => []
    | some (v, rp') => v :: rpCollect hash k rp'

/-- Well-formedness of a `FeistelNetwork`: masks determined by `half_width`
the way the constructor builds them. -/
def FeistelNetwork.WF (fn : FeistelNetwork) : Prop :=
  fn.right_mask = 2 ^ fn.half_width - 1 ∧
  fn.left_mask = (2 ^ fn.half_width - 1) * 2 ^ fn.half_width

/-- Sequence of in-range outputs of `permute` over the whole `2 ^ width`
domain, in the order the `Permutor` scans it. -/
def fullList (hash : List Nat → Nat) (fn : FeistelNetwork) (max : Nat) : List Nat :=
  ((List.range (2 ^ (2 * fn.half_width))).map (FeistelNetwork.permute hash fn)).filter
    (fun v => decide (v < max))

/-- Number of in-range outputs of `permute` among the first `c` domain
points. -/
def inRangeCount (hash : List Nat → Nat) (fn : FeistelNetwork) (max c : Nat) : Nat :=
  (((List.range c).map (FeistelNetwork.permute hash fn)).filter
    (fun v => decide (v < max))).length

/-- Invariant of reachable `Permutor` states: a well-formed network, `max`
and `current` within the `2 ^ width` domain, and `values_returned` equal to
the number of in-range outputs already scanned. -/
def Permutor.Inv (hash : List Nat → Nat) (p : Permutor) : Prop :=
  p.feistel.WF ∧
  p.max ≤ 2 ^ (2 * p.feistel.half_width) ∧
  p.current ≤ 2 ^ (2 * p.feistel.half_width) ∧
  p.values_returned = inRangeCount hash p.feistel p.max p.current

/-- In-range outputs of `permute` on the not-yet-scanned part of the domain,
in scan order. -/
def restList (hash : List Nat → Nat) (p : Permutor) : List Nat :=
  ((List.range' p.current (2 ^ (2 * p.feistel.half_width) - p.current)).map
    (FeistelNetwork.permute hash p.feistel)).filter (fun v => decide (v < p.max))

/-- Statement of the width property exactly as the claim words it: `w` is the
smallest even integer with `2 ^ w ≥ max`. -/
def isMinEvenWidthGE (max w : Nat) : Prop :=
  w % 2 = 0 ∧ max ≤ 2 ^ w ∧ ∀ w', w' < w → w' % 2 = 0 → ¬(max ≤ 2 ^ w')

/-- Amended width property satisfied by the code: `w` is the smallest even
integer with `2 ^ w > max` (the bit-length of `max` rounded up to even). -/
def isMinEvenWidthGT (max w : Nat) : Prop :=
  w % 2 = 0 ∧ max < 2 ^ w ∧ ∀ w', w' < w → w' % 2 = 0 → ¬(max < 2 ^ w')

/-- Big-endian 8-byte encoding as the specification words it
(most-significant byte first); used to check `u64_to_8slice` against the
spec. -/
def u64BigEndianSpec (n : Nat) : List Nat :=
  [n / 2 ^ 56 % 256, n / 2 ^ 48 % 256, n / 2 ^ 40 % 256, n / 2 ^ 32 % 256,
   n / 2 ^ 24 % 256, n / 2 ^ 16 % 256, n / 2 ^ 8 % 256, n % 256]

/-- An all-zero 32-byte key, used for concrete instantiations. -/
def key0 : List Nat := List.replicate 32 0

/-- A trivial instance of the opaque external hash: constantly zero. -/
def h0 : List Nat → Nat := fun _ => 0

/-- An instance of the opaque external hash that returns `1` exactly when the
round-index byte of the message (offset 40 = 32 key bytes + 8 right-half
bytes) is zero, and `0` otherwise. -/
def hOv : List Nat → Nat := fun msg => if msg.getD 40 0 = 0 then 1 else 0

/-- The network the constructor builds for `max = 4` and the zero key. -/
def fn4 : FeistelNetwork := ⟨2, 3, 12, key0, 32⟩

/-- The network the constructor builds for `max = 10` and the zero key. -/
def fn10 : FeistelNetwork := ⟨2, 3, 12, key0, 32⟩

/-- The permutor built for `max = 10` and the zero key. -/
def P10 : Permutor := ⟨fn10, 10, 0, 0⟩

/-- The permutor built for `max = 6` and the zero key. -/
def P6 : Permutor := ⟨⟨2, 3, 12, key0, 32⟩, 6, 0, 0⟩

/-- The pair permutor built for `max1 = 3`, `max2 = 2`, zero key. -/
def rp6 : RandomPairPermutor := ⟨P6, 2⟩

/-- The network the constructor builds for `max = 2 ^ 65` and the zero key. -/
def fnBig : FeistelNetwork := ⟨33, 2 ^ 33 - 1, (2 ^ 33 - 1) * 2 ^ 33, key0, 32⟩

/-- The permutor built for `max = 2 ^ 65` and the zero key. -/
def pBig : Permutor := ⟨fnBig, 2 ^ 65, 0, 0⟩

/-- The pair permutor built for `max1 = 2 ^ 63`, `max2 = 4`, zero key. -/
def rpBig : RandomPairPermutor := ⟨pBig, 4⟩

/-- The network the constructor builds for `max = 2 ^ 128 - 1` and the zero
key. -/
def fnOv : FeistelNetwork := ⟨64, 2 ^ 64 - 1, (2 ^ 64 - 1) * 2 ^ 64, key0, 32⟩

/-- The permutor built for `max = 2 ^ 128 - 1` and the zero key. -/
def pOv : Permutor := ⟨fnOv, 2 ^ 128 - 1, 0, 0⟩

/-! ## Bit-manipulation lemmas -/

lemma two_pow_sub_one_or (h : Nat) : (2 ^ h - 1) ||| 2 ^ h = 2 ^ (h + 1) - 1 := by
  apply Nat.eq_of_testBit_eq
  intro i
  simp only [Nat.testBit_or, Nat.testBit_two_pow_sub_one, Nat.testBit_two_pow]
  rcases lt_trichotomy i h with hi | hi | hi
  · simp [hi, Nat.lt_succ_of_lt hi, Nat.ne_of_gt hi]
  · simp [hi]
  · simp [Nat.not_lt.mpr hi.le, Nat.ne_of_lt hi]
    omega

lemma and_shift_mask (x a b : Nat) :
    (x &&& ((2 ^ b - 1) <<< a)) >>> a = x / 2 ^ a % 2 ^ b := by
  apply Nat.eq_of_testBit_eq
  intro i
  rw [← Nat.shiftRight_eq_div_pow]
  simp only [Nat.testBit_shiftRight, Nat.testBit_and, Nat.testBit_shiftLeft,
    Nat.testBit_mod_two_pow, Nat.testBit_two_pow_sub_one]
  have h2 : a + i - a = i := by omega
  simp [h2, Bool.and_comm]

lemma or_shr (l r h : Nat) (hr : r < 2 ^ h) : ((l <<< h) ||| r) >>> h = l := by
  apply Nat.eq_of_testBit_eq
  intro i
  simp only [Nat.testBit_shiftRight, Nat.testBit_or, Nat.testBit_shiftLeft]
  have h2 : h + i - h = i := by omega
  have h3 : r < 2 ^ (h + i) :=
    lt_of_lt_of_le hr (Nat.pow_le_pow_right (by norm_num) (by omega))
  simp [h2, Nat.testBit_lt_two_pow h3]

lemma or_mod (l r h : Nat) (hr : r < 2 ^ h) : ((l <<< h) ||| r) % 2 ^ h = r := by
  apply Nat.eq_of_testBit_eq
  intro i
  simp only [Nat.testBit_mod_two_pow, Nat.testBit_or, Nat.testBit_shiftLeft]
  by_cases hi : i < h
  · simp [hi, Nat.not_le.mpr hi]
  · have h3 : r < 2 ^ i :=
      lt_of_lt_of_le hr (Nat.pow_le_pow_right (by norm_num) (by omega))
    simp [hi, Nat.testBit_lt_two_pow h3]

lemma lor_disjoint_add (l r h : Nat) (hr : r < 2 ^ h) :
    (l <<< h) ||| r = l * 2 ^ h + r := by
  have hd := Nat.div_add_mod ((l <<< h) ||| r) (2 ^ h)
  rw [← Nat.shiftRight_eq_div_pow] at hd
  rw [or_shr l r h hr, or_mod l r h hr, Nat.mul_comm] at hd
  omega

lemma size_eq_succ (m k : Nat) (h1 : m < 2 ^ (k + 1)) (h2 : 2 ^ k ≤ m) :
    Nat.size m = k + 1 :=
  le_antisymm (Nat.size_le.mpr h1) (Nat.lt_size.mpr h2)

lemma size_succ_div_two (n : Nat) (h : n ≠ 0) :
    Nat.size (n / 2) + 1 = Nat.size n := by
  apply le_antisymm
  · apply Nat.succ_le_of_lt
    apply Nat.lt_size.mpr
    by_cases h2 : n / 2 = 0
    · rw [h2, Nat.size_zero, pow_zero]
      exact Nat.pos_of_ne_zero h
    · have h1 : 0 < Nat.size (n / 2) := Nat.size_pos.mpr (Nat.pos_of_ne_zero h2)
      obtain ⟨s, hs⟩ : ∃ s, Nat.size (n / 2) = s + 1 :=
        ⟨Nat.size (n / 2) - 1, by omega⟩
      rw [hs]
      have h3 : 2 ^ s ≤ n / 2 := Nat.lt_size.mp (by omega)
      have h4 : n / 2 * 2 ≤ n := Nat.div_mul_le_self n 2
      calc 2 ^ (s + 1) = 2 ^ s * 2 := by ring
        _ ≤ n / 2 * 2 := by omega
        _ ≤ n := h4
  · apply Nat.size_le.mpr
    have h1 := Nat.lt_size_self (n / 2)
    have h2 : n < 2 * (n / 2) + 2 := by omega
    rw [pow_succ]
    omega

lemma shiftCount_eq_size (n : Nat) : shiftCount n = Nat.size n := by
  induction n using Nat.strong_induction_on with
  | _ n ih =>
    by_cases h : n = 0
    · rw [shiftCount]
      simp [h]
    · rw [shiftCount, dif_neg h]
      show shiftCount (n >>> 1) + 1 = Nat.size n
      have hlt : n >>> 1 < n := by
        rw [Nat.shiftRight_eq_div_pow]
        exact Nat.div_lt_self (Nat.pos_of_ne_zero h) (by norm_num)
      have heq : n >>> 1 = n / 2 := by
        rw [Nat.shiftRight_eq_div_pow]
      rw [ih _ hlt, heq, size_succ_div_two n h]

lemma maskFor_eq (h : Nat) : maskFor h = 2 ^ h - 1 := by
  induction h with
  | zero => rfl
  | succ k ih =>
    unfold maskFor at ih ⊢
    rw [List.range_succ, List.foldl_append, ih]
    simp only [List.foldl_cons, List.foldl_nil]
    rw [Nat.shiftLeft_eq, one_mul, two_pow_sub_one_or]

/-! ## Constructor normal form -/

lemma integer_log2_eq (n : Nat) (h : n ≠ 0) : integer_log2 n = some (Nat.size n) := by
  unfold integer_log2
  rw [if_neg h, shiftCount_eq_size]

lemma new_with_slice_key_eq (max : Nat) (key : List Nat) (h : max ≠ 0) :
    FeistelNetwork.new_with_slice_key max key =
      some ⟨(Nat.size max + 1) / 2, 2 ^ ((Nat.size max + 1) / 2) - 1,
            (2 ^ ((Nat.size max + 1) / 2) - 1) * 2 ^ ((Nat.size max + 1) / 2),
            key, 32⟩ := by
  unfold FeistelNetwork.new_with_slice_key integer_log2
  rw [if_neg h, shiftCount_eq_size]
  dsimp only
  have hw : (if (Nat.size max % 2 != 0) = true then Nat.size max + 1 else Nat.size max) / 2
      = (Nat.size max + 1) / 2 := by
    rcases Nat.mod_two_eq_zero_or_one (Nat.size max) with h2 | h2
    · rw [if_neg (by simp [h2])]
      omega
    · rw [if_pos (by simp [h2])]
  rw [hw, maskFor_eq, Nat.shiftLeft_eq]

lemma new_fn_wf (max : Nat) (key : List Nat) (fn : FeistelNetwork)
    (h : FeistelNetwork.new_with_slice_key max key = some fn) :
    fn.WF ∧ max < 2 ^ (2 * fn.half_width) ∧ fn.key = key ∧ fn.rounds = 32 ∧
      fn.half_width = (Nat.size max + 1) / 2 := by
  have hmax : max ≠ 0 := by
    intro h0
    rw [h0] at h
    simp [FeistelNetwork.new_with_slice_key, integer_log2] at h
  rw [new_with_slice_key_eq max key hmax] at h
  obtain rfl : fn = _ := (Option.some.injEq _ _).mp h.symm
  refine ⟨⟨rfl, rfl⟩, ?_, rfl, rfl, rfl⟩
  have h1 : max < 2 ^ Nat.size max := Nat.lt_size_self max
  have h2 : Nat.size max ≤ 2 * ((Nat.size max + 1) / 2) := by omega
  calc max < 2 ^ Nat.size max := h1
    _ ≤ 2 ^ (2 * ((Nat.size max + 1) / 2)) := Nat.pow_le_pow_right (by norm_num) h2

/-! ## C3: width and mask derivation -/

/-- C3 (corrected): the claim that `2 * half_width` is the smallest even `w`
with `2 ^ w ≥ max` fails at `max = 4`: the constructor picks width 4 although
`2 ^ 2 ≥ 4` and 2 is even. -/
theorem claim_C3_counterexample :
    FeistelNetwork.new_with_slice_key 4 key0 = some fn4 ∧
    ¬ isMinEvenWidthGE 4 (2 * fn4.half_width) := by
  constructor
  · rw [new_with_slice_key_eq 4 key0 (by norm_num),
      size_eq_succ 4 2 (by norm_num) (by norm_num)]
    decide
  · show ¬ isMinEvenWidthGE 4 4
    unfold isMinEvenWidthGE
    decide

/-- C3 (amended): for every `max > 0` the constructor succeeds and returns a
network whose width `2 * half_width` is the smallest even `w` with
`2 ^ w > max` (the bit-length of `max` rounded up to even), with
`right_mask` the low `half_width` bits set and `left_mask` equal to
`right_mask` shifted left by `half_width`. -/
theorem claim_C3 (max : Nat) (key : List Nat) (h : 0 < max) :
    ∃ fn, FeistelNetwork.new_with_slice_key max key = some fn ∧
      isMinEvenWidthGT max (2 * fn.half_width) ∧
      fn.right_mask = 2 ^ fn.half_width - 1 ∧
      fn.left_mask = fn.right_mask <<< fn.half_width := by
  have hs : 0 < Nat.size max := Nat.size_pos.mpr h
  have hgt : isMinEvenWidthGT max (2 * ((Nat.size max + 1) / 2)) := by
    unfold isMinEvenWidthGT
    refine ⟨by omega, ?_, ?_⟩
    · have h1 : max < 2 ^ Nat.size max := Nat.lt_size_self max
      have h2 : Nat.size max ≤ 2 * ((Nat.size max + 1) / 2) := by omega
      exact lt_of_lt_of_le h1 (Nat.pow_le_pow_right (by norm_num) h2)
    · intro w' hlt heven hc
      have h3 : 2 ^ (Nat.size max - 1) ≤ max := Nat.lt_size.mp (by omega)
      have h4 : w' ≤ Nat.size max - 1 := by omega
      have h5 : 2 ^ w' ≤ 2 ^ (Nat.size max - 1) :=
        Nat.pow_le_pow_right (by norm_num) h4
      omega
  exact ⟨_, new_with_slice_key_eq max key (by omega), hgt, rfl,
    by rw [Nat.shiftLeft_eq]⟩

/-- Witness for C3 at `max = 10`, zero key. -/
theorem claim_C3_witness :
    ∃ fn, FeistelNetwork.new_with_slice_key 10 key0 = some fn ∧
      isMinEvenWidthGT 10 (2 * fn.half_width) ∧
      fn.right_mask = 2 ^ fn.half_width - 1 ∧
      fn.left_mask = fn.right_mask <<< fn.half_width :=
  claim_C3 10 key0 (by norm_num)

/-! ## C5: zero bound fails at construction -/

/-- C5: constructing a `FeistelNetwork` or a `Permutor` (by any of its three
constructors) with upper bound 0 fails at construction time, before any
iteration: no iterator is returned at all. -/
theorem claim_C5 :
    (∀ key, FeistelNetwork.new_with_slice_key 0 key = none) ∧
    (∀ key, FeistelNetwork.new 0 key = none) ∧
    (∀ key, Permutor.new_with_slice_key 0 key = none) ∧
    (∀ seed, Permutor.new_with_u64_key 0 seed = none) ∧
    (∀ key, Permutor.new 0 key = none) :=
  ⟨fun _ => rfl, fun _ => rfl, fun _ => rfl, fun _ => rfl, fun _ => rfl⟩

/-! ## C7: the bit-length function -/

/-- C7: `integer_log2` returns nothing on 0; on positive input it returns
exactly the number of right-shifts needed to reduce the input to zero (the
least `s` with `n >>> s = 0`); and it takes the claimed values on 1..10. -/
theorem claim_C7 :
    integer_log2 0 = none ∧
    (∀ n, 0 < n → ∃ s, integer_log2 n = some s ∧ n >>> s = 0 ∧
      ∀ t, t < s → n >>> t ≠ 0) ∧
    integer_log2 1 = some 1 ∧ integer_log2 2 = some 2 ∧ integer_log2 3 = some 2 ∧
    integer_log2 4 = some 3 ∧ integer_log2 5 = some 3 ∧ integer_log2 6 = some 3 ∧
    integer_log2 7 = some 3 ∧ integer_log2 8 = some 4 ∧ integer_log2 9 = some 4 ∧
    integer_log2 10 = some 4 := by
  have gen : ∀ n, 0 < n → ∃ s, integer_log2 n = some s ∧ n >>> s = 0 ∧
      ∀ t, t < s → n >>> t ≠ 0 := by
    intro n hn
    refine ⟨Nat.size n, integer_log2_eq n (by omega), ?_, ?_⟩
    · rw [Nat.shiftRight_eq_div_pow]
      exact Nat.div_eq_of_lt (Nat.lt_size_self n)
    · intro t ht
      rw [Nat.shiftRight_eq_div_pow]
      have h1 : 2 ^ t ≤ n := Nat.lt_size.mp ht
      have h2 : 0 < n / 2 ^ t := Nat.div_pos h1 (Nat.pos_pow_of_pos t (by norm_num))
      omega
  have conc : ∀ m k, m ≠ 0 → Nat.size m = k → integer_log2 m = some k := by
    intro m k hm hk
    rw [integer_log2_eq m hm, hk]
  refine ⟨rfl, gen, ?_, ?_, ?_, ?_, ?_, ?_, ?_, ?_, ?_, ?_⟩
  · exact conc 1 1 (by norm_num) (size_eq_succ 1 0 (by norm_num) (by norm_num))
  · exact conc 2 2 (by norm_num) (size_eq_succ 2 1 (by norm_num) (by norm_num))
  · exact conc 3 2 (by norm_num) (size_eq_succ 3 1 (by norm_num) (by norm_num))
  · exact conc 4 3 (by norm_num) (size_eq_succ 4 2 (by norm_num) (by norm_num))
  · exact conc 5 3 (by norm_num) (size_eq_succ 5 2 (by norm_num) (by norm_num))
  · exact conc 6 3 (by norm_num) (size_eq_succ 6 2 (by norm_num) (by norm_num))
  · exact conc 7 3 (by norm_num) (size_eq_succ 7 2 (by norm_num) (by norm_num))
  · exact conc 8 4 (by norm_num) (size_eq_succ 8 3 (by norm_num) (by norm_num))
  · exact conc 9 4 (by norm_num) (size_eq_succ 9 3 (by norm_num) (by norm_num))
  · exact conc 10 4 (by norm_num) (size_eq_succ 10 3 (by norm_num) (by norm_num))

/-- Witness for C7's general clause at `n = 5`. -/
theorem claim_C7_witness :
    ∃ s, integer_log2 5 = some s ∧ 5 >>> s = 0 ∧ ∀ t, t < s → 5 >>> t ≠ 0 :=
  claim_C7.2.1 5 (by norm_num)

/-! ## C9: byte encodings -/

lemma and_ff_shr (x a m : Nat) (hm : m = (2 ^ 8 - 1) <<< a) :
    (x &&& m) >>> a = x / 2 ^ a % 256 := by
  subst hm
  rw [and_shift_mask]
  norm_num

lemma u64_to_8slice_eq (n : Nat) : u64_to_8slice n = u64BigEndianSpec n := by
  have h56 := and_ff_shr n 56 0xFF00000000000000 (by rw [Nat.shiftLeft_eq]; norm_num)
  have h48 := and_ff_shr n 48 0x00FF000000000000 (by rw [Nat.shiftLeft_eq]; norm_num)
  have h40 := and_ff_shr n 40 0xFF0000000000 (by rw [Nat.shiftLeft_eq]; norm_num)
  have h32 := and_ff_shr n 32 0x00FF00000000 (by rw [Nat.shiftLeft_eq]; norm_num)
  have h24 := and_ff_shr n 24 0xFF000000 (by rw [Nat.shiftLeft_eq]; norm_num)
  have h16 := and_ff_shr n 16 0x00FF0000 (by rw [Nat.shiftLeft_eq]; norm_num)
  have h8 := and_ff_shr n 8 0xFF00 (by rw [Nat.shiftLeft_eq]; norm_num)
  have h0b : n &&& 0xFF = n % 256 := by
    have hx := Nat.and_pow_two_sub_one_eq_mod n 8
    norm_num at hx
    exact hx
  unfold u64_to_8slice u64BigEndianSpec
  rw [h56, h48, h40, h32, h24, h16, h8, h0b]

/-- C9: `u64_to_8slice` is the big-endian byte encoding (most significant
byte first), `u64_to_32slice` is those 8 bytes left-justified in 32 zeroed
bytes, and both take the claimed values at 42. -/
theorem claim_C9 (n : Nat) (h : n < 2 ^ 64) :
    u64_to_8slice n = u64BigEndianSpec n ∧
    u64_to_32slice n = u64BigEndianSpec n ++ List.replicate 24 0 ∧
    u64_to_8slice 42 = [0, 0, 0, 0, 0, 0, 0, 0x2A] ∧
    u64_to_32slice 42 = [0, 0, 0, 0, 0, 0, 0, 0x2A] ++ List.replicate 24 0 := by
  refine ⟨u64_to_8slice_eq n, ?_, by decide, by decide⟩
  unfold u64_to_32slice
  rw [u64_to_8slice_eq n]

/-- Witness for C9 at `n = 42`. -/
theorem claim_C9_witness :
    u64_to_8slice 42 = u64BigEndianSpec 42 ∧
    u64_to_32slice 42 = u64BigEndianSpec 42 ++ List.replicate 24 0 ∧
    u64_to_8slice 42 = [0, 0, 0, 0, 0, 0, 0, 0x2A] ∧
    u64_to_32slice 42 = [0, 0, 0, 0, 0, 0, 0, 0x2A] ++ List.replicate 24 0 :=
  claim_C9 42 (by norm_num)

/-! ## Feistel rounds: injectivity and bounds -/

lemma foldl_swap_xor_injective (l : List Nat) (F : Nat → Nat → Nat) :
    Function.Injective fun lr : Nat × Nat =>
      l.foldl (fun acc i => (acc.2, acc.1 ^^^ F i acc.2)) lr := by
  induction l with
  | nil => exact fun a b h => h
  | cons i t ih =>
    intro a b h
    simp only [List.foldl_cons] at h
    have h2 := ih h
    have h3 : a.2 = b.2 := congrArg Prod.fst h2
    have h4 : a.1 ^^^ F i a.2 = b.1 ^^^ F i b.2 := congrArg Prod.snd h2
    rw [h3] at h4
    have h5 : a.1 = b.1 := Nat.xor_left_inj.mp h4
    exact Prod.ext h5 h3

lemma feistelRounds_injective (hash : List Nat → Nat) (fn : FeistelNetwork) :
    Function.Injective (feistelRounds hash fn) :=
  foldl_swap_xor_injective (List.range fn.rounds)
    (fun i r => round_function hash r i fn.key fn.right_mask)

lemma round_function_lt (hash : List Nat → Nat) (right round : Nat)
    (key : List Nat) (h : Nat) :
    round_function hash right round key (2 ^ h - 1) < 2 ^ h := by
  unfold round_function
  exact lt_of_le_of_lt Nat.and_le_right
    (Nat.sub_lt (Nat.pos_pow_of_pos h (by norm_num)) (by norm_num))

lemma foldl_swap_xor_bounded (l : List Nat) (hash : List Nat → Nat)
    (key : List Nat) (h : Nat) :
    ∀ lr : Nat × Nat, lr.1 < 2 ^ h → lr.2 < 2 ^ h →
      (l.foldl (fun acc i =>
        (acc.2, acc.1 ^^^ round_function hash acc.2 i key (2 ^ h - 1))) lr).1 < 2 ^ h ∧
      (l.foldl (fun acc i =>
        (acc.2, acc.1 ^^^ round_function hash acc.2 i key (2 ^ h - 1))) lr).2 < 2 ^ h := by
  induction l with
  | nil => exact fun lr h1 h2 => ⟨h1, h2⟩
  | cons i t ih =>
    intro lr h1 h2
    simp only [List.foldl_cons]
    exact ih _ h2 (Nat.xor_lt_two_pow h1 (round_function_lt hash lr.2 i key h))

lemma feistelRounds_lt (hash : List Nat → Nat) (fn : FeistelNetwork) (hwf : fn.WF)
    (lr : Nat × Nat) (h1 : lr.1 < 2 ^ fn.half_width) (h2 : lr.2 < 2 ^ fn.half_width) :
    (feistelRounds hash fn lr).1 < 2 ^ fn.half_width ∧
    (feistelRounds hash fn lr).2 < 2 ^ fn.half_width := by
  obtain ⟨hr, _⟩ := hwf
  unfold feistelRounds
  rw [hr]
  exact foldl_swap_xor_bounded (List.range fn.rounds) hash fn.key fn.half_width lr h1 h2

lemma full_mask (fn : FeistelNetwork) (hwf : fn.WF) :
    fn.left_mask ||| fn.right_mask = 2 ^ (2 * fn.half_width) - 1 := by
  obtain ⟨hr, hl⟩ := hwf
  rw [hr, hl, ← Nat.shiftLeft_eq,
    lor_disjoint_add _ _ _ (Nat.sub_lt (Nat.pos_pow_of_pos _ (by norm_num)) (by norm_num)),
    Nat.sub_mul, one_mul, two_mul, pow_add]
  have hq : 0 < 2 ^ fn.half_width := Nat.pos_pow_of_pos _ (by norm_num)
  have hqq : 2 ^ fn.half_width ≤ 2 ^ fn.half_width * 2 ^ fn.half_width :=
    Nat.le_mul_of_pos_left _ hq
  omega

lemma combine_lt (L R h : Nat) (hL : L < 2 ^ h) (hR : R < 2 ^ h) :
    L * 2 ^ h + R < 2 ^ (2 * h) := by
  have h1 : L ≤ 2 ^ h - 1 := by omega
  have h2 : L * 2 ^ h ≤ (2 ^ h - 1) * 2 ^ h := Nat.mul_le_mul_right _ h1
  rw [Nat.sub_mul, one_mul] at h2
  have hq : 0 < 2 ^ h := Nat.pos_pow_of_pos _ (by norm_num)
  have hqq : 2 ^ h ≤ 2 ^ h * 2 ^ h := Nat.le_mul_of_pos_left _ hq
  rw [two_mul, pow_add]
  omega

lemma permute_eq (hash : List Nat → Nat) (fn : FeistelNetwork) (hwf : fn.WF)
    (x : Nat) :
    FeistelNetwork.permute hash fn x =
      (feistelRounds hash fn (x / 2 ^ fn.half_width % 2 ^ fn.half_width,
        x % 2 ^ fn.half_width)).1 * 2 ^ fn.half_width +
      (feistelRounds hash fn (x / 2 ^ fn.half_width % 2 ^ fn.half_width,
        x % 2 ^ fn.half_width)).2 := by
  obtain ⟨hr, hl⟩ := hwf
  have hq : 0 < 2 ^ fn.half_width := Nat.pos_pow_of_pos _ (by norm_num)
  have hsplitL : (x &&& fn.left_mask) >>> fn.half_width
      = x / 2 ^ fn.half_width % 2 ^ fn.half_width := by
    rw [hl, ← Nat.shiftLeft_eq, and_shift_mask]
  have hsplitR : x &&& fn.right_mask = x % 2 ^ fn.half_width := by
    rw [hr, Nat.and_pow_two_sub_one_eq_mod]
  have hF := feistelRounds_lt hash fn ⟨hr, hl⟩
    (x / 2 ^ fn.half_width % 2 ^ fn.half_width, x % 2 ^ fn.half_width)
    (Nat.mod_lt _ hq) (Nat.mod_lt _ hq)
  simp only [FeistelNetwork.permute]
  rw [hsplitL, hsplitR, full_mask fn ⟨hr, hl⟩,
    lor_disjoint_add _ _ _ hF.2, Nat.and_pow_two_sub_one_eq_mod]
  exact Nat.mod_eq_of_lt (combine_lt _ _ _ hF.1 hF.2)

lemma permute_lt (hash : List Nat → Nat) (fn : FeistelNetwork) (hwf : fn.WF)
    (x : Nat) :
    FeistelNetwork.permute hash fn x < 2 ^ (2 * fn.half_width) := by
  have hq : 0 < 2 ^ fn.half_width := Nat.pos_pow_of_pos _ (by norm_num)
  have hF := feistelRounds_lt hash fn hwf
    (x / 2 ^ fn.half_width % 2 ^ fn.half_width, x % 2 ^ fn.half_width)
    (Nat.mod_lt _ hq) (Nat.mod_lt _ hq)
  rw [permute_eq hash fn hwf x]
  exact combine_lt _ _ _ hF.1 hF.2

lemma permute_mod (hash : List Nat → Nat) (fn : FeistelNetwork) (hwf : fn.WF)
    (x : Nat) :
    FeistelNetwork.permute hash fn x
      = FeistelNetwork.permute hash fn (x % 2 ^ (2 * fn.half_width)) := by
  have e1 : x % 2 ^ (2 * fn.half_width) / 2 ^ fn.half_width % 2 ^ fn.half_width
      = x / 2 ^ fn.half_width % 2 ^ fn.half_width := by
    rw [two_mul, pow_add, Nat.mod_mul_right_div_self]
    exact Nat.mod_mod_of_dvd _ dvd_rfl
  have e2 : x % 2 ^ (2 * fn.half_width) % 2 ^ fn.half_width = x % 2 ^ fn.half_width :=
    Nat.mod_mod_of_dvd x (pow_dvd_pow 2 (by omega))
  rw [permute_eq hash fn hwf x, permute_eq hash fn hwf (x % 2 ^ (2 * fn.half_width)),
    e1, e2]

lemma permute_injOn (hash : List Nat → Nat) (fn : FeistelNetwork) (hwf : fn.WF) :
    ∀ x, x < 2 ^ (2 * fn.half_width) → ∀ y, y < 2 ^ (2 * fn.half_width) →
      FeistelNetwork.permute hash fn x = FeistelNetwork.permute hash fn y → x = y := by
  intro x hx y hy h
  have hq : 0 < 2 ^ fn.half_width := Nat.pos_pow_of_pos _ (by norm_num)
  rw [permute_eq hash fn hwf x, permute_eq hash fn hwf y] at h
  have hFx := feistelRounds_lt hash fn hwf
    (x / 2 ^ fn.half_width % 2 ^ fn.half_width, x % 2 ^ fn.half_width)
    (Nat.mod_lt _ hq) (Nat.mod_lt _ hq)
  have hFy := feistelRounds_lt hash fn hwf
    (y / 2 ^ fn.half_width % 2 ^ fn.half_width, y % 2 ^ fn.half_width)
    (Nat.mod_lt _ hq) (Nat.mod_lt _ hq)
  have hsnd : (feistelRounds hash fn (x / 2 ^ fn.half_width % 2 ^ fn.half_width,
      x % 2 ^ fn.half_width)).2
      = (feistelRounds hash fn (y / 2 ^ fn.half_width % 2 ^ fn.half_width,
      y % 2 ^ fn.half_width)).2 := by
    have hm := congrArg (· % 2 ^ fn.half_width) h
    simp only [Nat.mul_add_mod'] at hm
    rwa [Nat.mod_eq_of_lt hFx.2, Nat.mod_eq_of_lt hFy.2] at hm
  have hfst : (feistelRounds hash fn (x / 2 ^ fn.half_width % 2 ^ fn.half_width,
      x % 2 ^ fn.half_width)).1
      = (feistelRounds hash fn (y / 2 ^ fn.half_width % 2 ^ fn.half_width,
      y % 2 ^ fn.half_width)).1 := by
    have hm := congrArg (· / 2 ^ fn.half_width) h
    simp only [Nat.mul_comm _ (2 ^ fn.half_width)] at hm
    rw [Nat.mul_add_div hq, Nat.mul_add_div hq,
      Nat.div_eq_of_lt hFx.2, Nat.div_eq_of_lt hFy.2] at hm
    simpa using hm
  have hpair := feistelRounds_injective hash fn (Prod.ext hfst hsnd)
  have hx1 : x / 2 ^ fn.half_width % 2 ^ fn.half_width = y / 2 ^ fn.half_width % 2 ^ fn.half_width :=
    congrArg Prod.fst hpair
  have hx2 : x % 2 ^ fn.half_width = y % 2 ^ fn.half_width :=
    congrArg Prod.snd hpair
  have hxq : x / 2 ^ fn.half_width < 2 ^ fn.half_width := by
    rw [Nat.div_lt_iff_lt_mul hq]
    rw [two_mul, pow_add] at hx
    exact hx
  have hyq : y / 2 ^ fn.half_width < 2 ^ fn.half_width := by
    rw [Nat.div_lt_iff_lt_mul hq]
    rw [two_mul, pow_add] at hy
    exact hy
  rw [Nat.mod_eq_of_lt hxq, Nat.mod_eq_of_lt hyq] at hx1
  have e1 := Nat.div_add_mod x (2 ^ fn.half_width)
  have e2 := Nat.div_add_mod y (2 ^ fn.half_width)
  have e3 : 2 ^ fn.half_width * (x / 2 ^ fn.half_width)
      = 2 ^ fn.half_width * (y / 2 ^ fn.half_width) := by rw [hx1]
  omega

lemma permute_image (hash : List Nat → Nat) (fn : FeistelNetwork) (hwf : fn.WF) :
    (Finset.range (2 ^ (2 * fn.half_width))).image (FeistelNetwork.permute hash fn)
      = Finset.range (2 ^ (2 * fn.half_width)) := by
  apply Finset.eq_of_subset_of_card_le
  · intro v hv
    simp only [Finset.mem_image, Finset.mem_range] at hv ⊢
    obtain ⟨x, _, rfl⟩ := hv
    exact permute_lt hash fn hwf x
  · apply le_of_eq
    symm
    rw [Finset.card_image_of_injOn, Finset.card_range]
    intro x hx y hy hxy
    simp only [Finset.coe_range, Set.mem_Iio] at hx hy
    exact permute_injOn hash fn hwf x hx y hy hxy

/-! ## The full emission order is a permutation of `range max` -/

lemma filter_range_lt (n max : Nat) (h : max ≤ n) :
    (List.range n).filter (fun v => decide (v < max)) = List.range max := by
  induction n with
  | zero =>
    have h0 : max = 0 := by omega
    subst h0
    rfl
  | succ k ih =>
    by_cases hk : max ≤ k
    · rw [List.range_succ, List.filter_append, ih hk]
      have : ¬(k < max) := by omega
      simp [this]
    · have hm : max = k + 1 := by omega
      subst hm
      apply List.filter_eq_self.mpr
      intro a ha
      simp [List.mem_range.mp ha]

lemma map_permute_nodup (hash : List Nat → Nat) (fn : FeistelNetwork) (hwf : fn.WF) :
    (((List.range (2 ^ (2 * fn.half_width))).map
      (FeistelNetwork.permute hash fn))).Nodup := by
  apply List.Nodup.map_on
  · intro x hx y hy h
    exact permute_injOn hash fn hwf x (List.mem_range.mp hx) y (List.mem_range.mp hy) h
  · exact List.nodup_range _

lemma map_permute_perm (hash : List Nat → Nat) (fn : FeistelNetwork) (hwf : fn.WF) :
    (((List.range (2 ^ (2 * fn.half_width))).map
      (FeistelNetwork.permute hash fn))).Perm (List.range (2 ^ (2 * fn.half_width))) := by
  apply List.perm_of_nodup_nodup_toFinset_eq (map_permute_nodup hash fn hwf)
    (List.nodup_range _)
  ext v
  simp only [List.mem_toFinset, List.mem_map, List.mem_range]
  constructor
  · rintro ⟨x, _, rfl⟩
    exact permute_lt hash fn hwf x
  · intro hv
    have himg := permute_image hash fn hwf
    have hv2 : v ∈ Finset.range (2 ^ (2 * fn.half_width)) := Finset.mem_range.mpr hv
    rw [← himg] at hv2
    simp only [Finset.mem_image, Finset.mem_range] at hv2
    exact hv2

lemma fullList_perm (hash : List Nat → Nat) (fn : FeistelNetwork) (max : Nat)
    (hwf : fn.WF) (hmax : max ≤ 2 ^ (2 * fn.half_width)) :
    (fullList hash fn max).Perm (List.range max) := by
  unfold fullList
  rw [← filter_range_lt (2 ^ (2 * fn.half_width)) max hmax]
  exact (map_permute_perm hash fn hwf).filter _

/-! ## Operational lemmas for the iterator -/

lemma pnext_unfold (hash : List Nat → Nat) (p : Permutor)
    (h : p.current < 2 ^ (2 * p.feistel.half_width)) :
    pnext hash p =
      (if p.values_returned < p.max then
        (if FeistelNetwork.permute hash p.feistel p.current ≥ p.max
          then pnext hash { p with current := p.current + 1 }
          else some (FeistelNetwork.permute hash p.feistel p.current,
            { p with current := p.current + 1,
                     values_returned := p.values_returned + 1 }))
      else none) := by
  conv_lhs => unfold pnext
  have h1 : 2 ^ (2 * p.feistel.half_width) + 1 - p.current
      = (2 ^ (2 * p.feistel.half_width) - p.current) + 1 := by omega
  rw [h1, nextGo]
  conv_rhs => unfold pnext
  dsimp only
  have h2 : 2 ^ (2 * p.feistel.half_width) + 1 - (p.current + 1)
      = 2 ^ (2 * p.feistel.half_width) - p.current := by omega
  rw [h2]

lemma pnext_none (hash : List Nat → Nat) (p : Permutor)
    (h : ¬ p.values_returned < p.max) : pnext hash p = none := by
  unfold pnext
  generalize 2 ^ (2 * p.feistel.half_width) + 1 - p.current = f
  cases f with
  | zero => rfl
  | succ k =>
    rw [nextGo]
    exact if_neg h

lemma inRangeCount_succ (hash : List Nat → Nat) (fn : FeistelNetwork) (max c : Nat) :
    inRangeCount hash fn max (c + 1) =
      inRangeCount hash fn max c +
        (if FeistelNetwork.permute hash fn c < max then 1 else 0) := by
  unfold inRangeCount
  rw [List.range_succ, List.map_append, List.filter_append, List.length_append]
  by_cases h : FeistelNetwork.permute hash fn c < max
  · simp [h]
  · simp [h]

lemma inRangeCount_mono (hash : List Nat → Nat) (fn : FeistelNetwork) (max : Nat)
    {c d : Nat} (h : c ≤ d) :
    inRangeCount hash fn max c ≤ inRangeCount hash fn max d := by
  induction d with
  | zero =>
    have h0 : c = 0 := by omega
    subst h0
    exact le_refl _
  | succ k ih =>
    by_cases hc : c = k + 1
    · subst hc
      exact le_refl _
    · have hck : c ≤ k := by omega
      have h1 := ih hck
      rw [inRangeCount_succ]
      split_ifs <;> omega

lemma inRangeCount_total (hash : List Nat → Nat) (fn : FeistelNetwork) (max : Nat)
    (hwf : fn.WF) (hmax : max ≤ 2 ^ (2 * fn.half_width)) :
    inRangeCount hash fn max (2 ^ (2 * fn.half_width)) = max := by
  show (fullList hash fn max).length = max
  rw [(fullList_perm hash fn max hwf hmax).length_eq, List.length_range]

lemma inv_vr_le (hash : List Nat → Nat) (p : Permutor) (h : p.Inv hash) :
    p.values_returned ≤ p.max := by
  obtain ⟨hwf, hmax, hcur, hvr⟩ := h
  rw [hvr]
  calc inRangeCount hash p.feistel p.max p.current
      ≤ inRangeCount hash p.feistel p.max (2 ^ (2 * p.feistel.half_width)) :=
        inRangeCount_mono hash p.feistel p.max hcur
    _ = p.max := inRangeCount_total hash p.feistel p.max hwf hmax

lemma range_split (c n : Nat) (h : c ≤ n) :
    List.range n = List.range c ++ List.range' c (n - c) := by
  have h1 : n - c + c = n := by omega
  calc List.range n = List.range' 0 n := List.range_eq_range' n
    _ = List.range' 0 (n - c + c) := by rw [h1]
    _ = List.range' 0 c ++ List.range' (0 + 1 * c) (n - c) :=
        (List.range'_append 0 c (n - c) 1).symm
    _ = List.range c ++ List.range' c (n - c) := by
        rw [← List.range_eq_range']
        norm_num

lemma fullList_split (hash : List Nat → Nat) (p : Permutor)
    (hcur : p.current ≤ 2 ^ (2 * p.feistel.half_width)) :
    fullList hash p.feistel p.max =
      (((List.range p.current).map (FeistelNetwork.permute hash p.feistel)).filter
        (fun v => decide (v < p.max))) ++ restList hash p := by
  unfold fullList restList
  rw [range_split p.current (2 ^ (2 * p.feistel.half_width)) hcur,
    List.map_append, List.filter_append]

lemma restList_length (hash : List Nat → Nat) (p : Permutor) (h : p.Inv hash) :
    (restList hash p).length = p.max - p.values_returned := by
  obtain ⟨hwf, hmax, hcur, hvr⟩ := h
  have hsplit := fullList_split hash p hcur
  have hlen := congrArg List.length hsplit
  rw [List.length_append] at hlen
  have hfull : (fullList hash p.feistel p.max).length = p.max :=
    (fullList_perm hash p.feistel p.max hwf hmax).length_eq.trans
      (List.length_range p.max)
  have hvr2 : p.values_returned ≤ p.max := inv_vr_le hash p ⟨hwf, hmax, hcur, hvr⟩
  rw [hfull] at hlen
  rw [hvr]
  unfold inRangeCount
  omega

lemma pnext_spec (hash : List Nat → Nat) :
    ∀ m (p : Permutor), 2 ^ (2 * p.feistel.half_width) - p.current = m →
      p.Inv hash → p.values_returned < p.max →
      ∃ v p', pnext hash p = some (v, p') ∧ p'.Inv hash ∧
        p'.feistel = p.feistel ∧ p'.max = p.max ∧
        p'.values_returned = p.values_returned + 1 ∧
        p.current < p'.current ∧
        p'.current ≤ 2 ^ (2 * p.feistel.half_width) ∧
        v < p.max ∧
        FeistelNetwork.permute hash p.feistel (p'.current - 1) = v ∧
        restList hash p = v :: restList hash p' := by
  intro m
  induction m with
  | zero =>
    intro p hm hInv hvr
    obtain ⟨hwf, hmax, hcur, hcount⟩ := hInv
    have hc : p.current = 2 ^ (2 * p.feistel.half_width) := by omega
    rw [hc, inRangeCount_total hash p.feistel p.max hwf hmax] at hcount
    omega
  | succ k ih =>
    intro p hm hInv hvr
    obtain ⟨hwf, hmax, hcur, hcount⟩ := hInv
    have hclt : p.current < 2 ^ (2 * p.feistel.half_width) := by omega
    rw [pnext_unfold hash p hclt, if_pos hvr]
    by_cases hout : FeistelNetwork.permute hash p.feistel p.current ≥ p.max
    · rw [if_pos hout]
      have hInv1 : Permutor.Inv hash { p with current := p.current + 1 } := by
        refine ⟨hwf, hmax, ?_, ?_⟩
        · show p.current + 1 ≤ 2 ^ (2 * p.feistel.half_width)
          omega
        · show p.values_returned = inRangeCount hash p.feistel p.max (p.current + 1)
          rw [inRangeCount_succ, if_neg (by omega)]
          omega
      have hm1 : 2 ^ (2 * p.feistel.half_width) - (p.current + 1) = k := by omega
      obtain ⟨v, p', hn, hInv', hfn, hmax', hvr', hcur', hcub, hvlt, hpm, hrest⟩ :=
        ih { p with current := p.current + 1 } hm1 hInv1 hvr
      have hcur2 : p.current + 1 < p'.current := hcur'
      refine ⟨v, p', hn, hInv', hfn, hmax', hvr', by omega, hcub, hvlt, hpm, ?_⟩
      have hrl : restList hash p
          = restList hash { p with current := p.current + 1 } := by
        unfold restList
        show (((List.range' p.current (2 ^ (2 * p.feistel.half_width) - p.current)).map
            (FeistelNetwork.permute hash p.feistel)).filter (fun v => decide (v < p.max)))
          = (((List.range' (p.current + 1)
              (2 ^ (2 * p.feistel.half_width) - (p.current + 1))).map
            (FeistelNetwork.permute hash p.feistel)).filter (fun v => decide (v < p.max)))
        rw [hm, List.range'_succ, List.map_cons, List.filter_cons]
        have hko : 2 ^ (2 * p.feistel.half_width) - (p.current + 1) = k := by omega
        rw [hko]
        have hno : ¬ (FeistelNetwork.permute hash p.feistel p.current < p.max) := by omega
        simp [hno]
      rw [hrl]
      exact hrest
    · rw [if_neg hout]
      push_neg at hout
      refine ⟨FeistelNetwork.permute hash p.feistel p.current,
        { p with current := p.current + 1, values_returned := p.values_returned + 1 },
        rfl, ?_, rfl, rfl, rfl, Nat.lt_succ_self _, ?_, hout, rfl, ?_⟩
      · refine ⟨hwf, hmax, ?_, ?_⟩
        · show p.current + 1 ≤ 2 ^ (2 * p.feistel.half_width)
          omega
        · show p.values_returned + 1 = inRangeCount hash p.feistel p.max (p.current + 1)
          rw [inRangeCount_succ, if_pos hout]
          omega
      · show p.current + 1 ≤ 2 ^ (2 * p.feistel.half_width)
        omega
      · unfold restList
        show (((List.range' p.current (2 ^ (2 * p.feistel.half_width) - p.current)).map
            (FeistelNetwork.permute hash p.feistel)).filter (fun v => decide (v < p.max)))
          = FeistelNetwork.permute hash p.feistel p.current ::
            (((List.range' (p.current + 1)
              (2 ^ (2 * p.feistel.half_width) - (p.current + 1))).map
            (FeistelNetwork.permute hash p.feistel)).filter (fun v => decide (v < p.max)))
        rw [hm, List.range'_succ, List.map_cons, List.filter_cons]
        have hko : 2 ^ (2 * p.feistel.half_width) - (p.current + 1) = k := by omega
        rw [hko]
        simp [hout]

lemma collect_take (hash : List Nat → Nat) :
    ∀ (k : Nat) (p : Permutor), p.Inv hash →
      collect hash k p = (restList hash p).take k := by
  intro k
  induction k with
  | zero => intro p _; rfl
  | succ k ih =>
    intro p hInv
    by_cases hvr : p.values_returned < p.max
    · obtain ⟨v, p', hn, hInv', _, _, _, _, _, _, _, hrest⟩ :=
        pnext_spec hash (2 ^ (2 * p.feistel.half_width) - p.current) p rfl hInv hvr
      show collect hash (k + 1) p = _
      simp only [collect]
      rw [hn]
      show v :: collect hash k p' = _
      rw [ih p' hInv', hrest, List.take_succ_cons]
    · have hn := pnext_none hash p hvr
      have hlen : (restList hash p).length = 0 := by
        rw [restList_length hash p hInv]
        omega
      have hnil : restList hash p = [] := List.eq_nil_of_length_eq_zero hlen
      show collect hash (k + 1) p = _
      simp only [collect]
      rw [hn, hnil]
      rfl

lemma stateAfter_spec (hash : List Nat → Nat) :
    ∀ (k : Nat) (p : Permutor), p.Inv hash →
      (stateAfter hash k p).Inv hash ∧
      (stateAfter hash k p).feistel = p.feistel ∧
      (stateAfter hash k p).max = p.max ∧
      (stateAfter hash k p).values_returned = min (p.values_returned + k) p.max := by
  intro k
  induction k with
  | zero =>
    intro p hInv
    refine ⟨hInv, rfl, rfl, ?_⟩
    have := inv_vr_le hash p hInv
    show p.values_returned = min (p.values_returned + 0) p.max
    omega
  | succ k ih =>
    intro p hInv
    by_cases hvr : p.values_returned < p.max
    · obtain ⟨v, p', hn, hInv', hfn, hmax', hvr', _, _, _, _, _⟩ :=
        pnext_spec hash (2 ^ (2 * p.feistel.half_width) - p.current) p rfl hInv hvr
      simp only [stateAfter]
      rw [hn]
      obtain ⟨g1, g2, g3, g4⟩ := ih p' hInv'
      refine ⟨g1, g2.trans hfn, g3.trans hmax', ?_⟩
      rw [g4, hvr', hmax']
      omega
    · have hn := pnext_none hash p hvr
      have hvrle := inv_vr_le hash p hInv
      simp only [stateAfter]
      rw [hn]
      refine ⟨hInv, rfl, rfl, ?_⟩
      show p.values_returned = min (p.values_returned + (k + 1)) p.max
      omega

lemma new_permutor_inv (hash : List Nat → Nat) (max : Nat) (key : List Nat)
    (p0 : Permutor) (h : Permutor.new_with_slice_key max key = some p0) :
    p0.Inv hash ∧ p0.feistel.WF ∧ p0.max = max ∧ p0.current = 0 ∧
      p0.values_returned = 0 ∧ max < 2 ^ (2 * p0.feistel.half_width) ∧
      restList hash p0 = fullList hash p0.feistel max := by
  unfold Permutor.new_with_slice_key at h
  cases hfn : FeistelNetwork.new_with_slice_key max key with
  | none => rw [hfn] at h; cases h
  | some fn =>
    rw [hfn] at h
    obtain rfl : (⟨fn, max, 0, 0⟩ : Permutor) = p0 := Option.some.inj h
    obtain ⟨hwf, hlt, _, _, _⟩ := new_fn_wf max key fn hfn
    refine ⟨⟨hwf, le_of_lt hlt, Nat.zero_le _, rfl⟩, hwf, rfl, rfl, rfl, hlt, ?_⟩
    unfold restList fullList
    show (((List.range' 0 (2 ^ (2 * fn.half_width) - 0)).map
        (FeistelNetwork.permute hash fn)).filter (fun v => decide (v < max))) = _
    rw [Nat.sub_zero, ← List.range_eq_range']

lemma fn10_eq : FeistelNetwork.new_with_slice_key 10 key0 = some fn10 := by
  rw [new_with_slice_key_eq 10 key0 (by norm_num),
    size_eq_succ 10 3 (by norm_num) (by norm_num)]
  decide

lemma P10_eq : Permutor.new_with_slice_key 10 key0 = some P10 := by
  unfold Permutor.new_with_slice_key
  rw [fn10_eq]
  rfl

/-! ## C1: bounded coverage -/

/-- C1: for every `max > 0`, a Permutor built for `max` (with any key and any
round hash) yields exactly `max` values in its first `max` calls, each below
`max`, pairwise distinct, with value set `{0, …, max-1}`; further calls
change nothing and `next` then returns `None`. -/
theorem claim_C1 (max : Nat) (key : List Nat) (hash : List Nat → Nat)
    (p0 : Permutor) (h : Permutor.new_with_slice_key max key = some p0)
    (hpos : 0 < max) :
    (collect hash max p0).length = max ∧
    (∀ v ∈ collect hash max p0, v < max) ∧
    (collect hash max p0).Nodup ∧
    (collect hash max p0).toFinset = Finset.range max ∧
    (∀ k, max ≤ k → collect hash k p0 = collect hash max p0) ∧
    pnext hash (stateAfter hash max p0) = none := by
  obtain ⟨hInv, hwf, hm, hc, hv, hltW, hrest⟩ := new_permutor_inv hash max key p0 h
  have hmaxW : max ≤ 2 ^ (2 * p0.feistel.half_width) := le_of_lt hltW
  have hperm : (fullList hash p0.feistel max).Perm (List.range max) :=
    fullList_perm hash p0.feistel max hwf hmaxW
  have hlenfull : (fullList hash p0.feistel max).length = max :=
    hperm.length_eq.trans (List.length_range max)
  have hcoll : ∀ k, collect hash k p0 = (fullList hash p0.feistel max).take k := by
    intro k
    rw [collect_take hash k p0 hInv, hrest]
  have hcolmax : collect hash max p0 = fullList hash p0.feistel max := by
    rw [hcoll max]
    exact List.take_of_length_le (le_of_eq hlenfull)
  refine ⟨?_, ?_, ?_, ?_, ?_, ?_⟩
  · rw [hcolmax, hlenfull]
  · intro v hvmem
    rw [hcolmax] at hvmem
    exact List.mem_range.mp (hperm.mem_iff.mp hvmem)
  · rw [hcolmax]
    unfold fullList
    exact (map_permute_nodup hash p0.feistel hwf).filter _
  · rw [hcolmax]
    ext v
    simp only [List.mem_toFinset, Finset.mem_range]
    rw [hperm.mem_iff]
    exact List.mem_range
  · intro k hk
    rw [hcoll k, hcolmax]
    exact List.take_of_length_le (by omega)
  · obtain ⟨hInv', _, hmax', hvr'⟩ := stateAfter_spec hash max p0 hInv
    apply pnext_none
    rw [hvr', hmax', hv, hm]
    omega

/-- Witness for C1 at `max = 10`, zero key, constant-zero hash. -/
theorem claim_C1_witness :
    (collect h0 10 P10).length = 10 ∧
    (∀ v ∈ collect h0 10 P10, v < 10) ∧
    (collect h0 10 P10).Nodup ∧
    (collect h0 10 P10).toFinset = Finset.range 10 ∧
    (∀ k, 10 ≤ k → collect h0 k P10 = collect h0 10 P10) ∧
    pnext h0 (stateAfter h0 10 P10) = none :=
  claim_C1 10 key0 h0 P10 P10_eq (by norm_num)

/-! ## C2: bijectivity of `permute` on the active domain -/

/-- C2: for a constructed network (any key, any round hash), `permute` is
injective on `[0, 2 ^ width)` with `width = 2 * half_width`, and every
element of that interval is hit. -/
theorem claim_C2 (max : Nat) (key : List Nat) (hash : List Nat → Nat)
    (fn : FeistelNetwork) (h : FeistelNetwork.new_with_slice_key max key = some fn) :
    (∀ x, x < 2 ^ (2 * fn.half_width) → ∀ y, y < 2 ^ (2 * fn.half_width) →
      FeistelNetwork.permute hash fn x = FeistelNetwork.permute hash fn y → x = y) ∧
    (∀ y, y < 2 ^ (2 * fn.half_width) → ∃ x, x < 2 ^ (2 * fn.half_width) ∧
      FeistelNetwork.permute hash fn x = y) := by
  have hwf := (new_fn_wf max key fn h).1
  refine ⟨permute_injOn hash fn hwf, ?_⟩
  intro y hy
  have himg := permute_image hash fn hwf
  have hv : y ∈ Finset.range (2 ^ (2 * fn.half_width)) := Finset.mem_range.mpr hy
  rw [← himg] at hv
  simp only [Finset.mem_image, Finset.mem_range] at hv
  exact hv

/-- Witness for C2 at `max = 10` (width 4): 5 has a preimage under the
constant-zero hash. -/
theorem claim_C2_witness :
    ∃ x, x < 2 ^ (2 * fn10.half_width) ∧ FeistelNetwork.permute h0 fn10 x = 5 :=
  (claim_C2 10 key0 h0 fn10 fn10_eq).2 5 (by decide)

/-! ## C10: out-of-domain bits are ignored, output is masked -/

/-- C10: for a constructed network, `permute` agrees on `input` and
`input &&& (left_mask ||| right_mask)`, and its output always lies below
`2 ^ (2 * half_width)`. -/
theorem claim_C10 (max : Nat) (key : List Nat) (hash : List Nat → Nat)
    (fn : FeistelNetwork) (h : FeistelNetwork.new_with_slice_key max key = some fn)
    (input : Nat) :
    FeistelNetwork.permute hash fn input
      = FeistelNetwork.permute hash fn (input &&& (fn.left_mask ||| fn.right_mask)) ∧
    FeistelNetwork.permute hash fn input < 2 ^ (2 * fn.half_width) := by
  have hwf := (new_fn_wf max key fn h).1
  constructor
  · rw [full_mask fn hwf, Nat.and_pow_two_sub_one_eq_mod]
    exact permute_mod hash fn hwf input
  · exact permute_lt hash fn hwf input

/-- Witness for C10 at `max = 10` and an input with bits far outside the
4-bit domain. -/
theorem claim_C10_witness :
    FeistelNetwork.permute h0 fn10 (2 ^ 100 + 5)
      = FeistelNetwork.permute h0 fn10 ((2 ^ 100 + 5) &&& (fn10.left_mask ||| fn10.right_mask)) ∧
    FeistelNetwork.permute h0 fn10 (2 ^ 100 + 5) < 2 ^ (2 * fn10.half_width) :=
  claim_C10 10 key0 h0 fn10 fn10_eq (2 ^ 100 + 5)

/-! ## C6: determinism under a fixed key -/

/-- C6: two Permutors built with the same `max` and the same 32-byte key (and
driven by the same deterministic hash) produce identical output sequences;
likewise, the 64-bit-seed constructor produces exactly the sequence of the
slice-key constructor applied to the embedded key. -/
theorem claim_C6 (max : Nat) (hash : List Nat → Nat) (n : Nat) :
    (∀ key p1 p2, Permutor.new_with_slice_key max key = some p1 →
      Permutor.new_with_slice_key max key = some p2 →
      collect hash n p1 = collect hash n p2) ∧
    (∀ seed, (Permutor.new_with_u64_key max seed).map (fun p => collect hash n p)
      = (Permutor.new_with_slice_key max (u64_to_32slice seed)).map
          (fun p => collect hash n p)) := by
  constructor
  · intro key p1 p2 h1 h2
    rw [h1] at h2
    rw [Option.some.inj h2]
  · intro seed
    rfl

/-- Witness for C6 at `max = 10`, zero key, three values collected. -/
theorem claim_C6_witness : collect h0 3 P10 = collect h0 3 P10 :=
  (claim_C6 10 h0 3).1 key0 P10 P10 P10_eq P10_eq

/-! ## C4: pair permutor -/

lemma collect_max_eq_fullList (hash : List Nat → Nat) (max : Nat) (key : List Nat)
    (p0 : Permutor) (h : Permutor.new_with_slice_key max key = some p0) :
    collect hash max p0 = fullList hash p0.feistel max ∧
    (collect hash max p0).Perm (List.range max) ∧
    (collect hash max p0).Nodup := by
  obtain ⟨hInv, hwf, hm, hc, hv, hltW, hrest⟩ := new_permutor_inv hash max key p0 h
  have hperm : (fullList hash p0.feistel max).Perm (List.range max) :=
    fullList_perm hash p0.feistel max hwf (le_of_lt hltW)
  have hlenfull : (fullList hash p0.feistel max).length = max :=
    hperm.length_eq.trans (List.length_range max)
  have hcolmax : collect hash max p0 = fullList hash p0.feistel max := by
    rw [collect_take hash max p0 hInv, hrest]
    exact List.take_of_length_le (le_of_eq hlenfull)
  refine ⟨hcolmax, ?_, ?_⟩
  · rw [hcolmax]
    exact hperm
  · rw [hcolmax]
    exact (map_permute_nodup hash p0.feistel hwf).filter _

lemma rpCollect_eq (hash : List Nat → Nat) :
    ∀ (k : Nat) (rp : RandomPairPermutor),
      rpCollect hash k rp = (collect hash k rp.permutor).map
        (fun v => (v % 2 ^ 64 / rp.max2, v % 2 ^ 64 % rp.max2)) := by
  intro k
  induction k with
  | zero => intro rp; rfl
  | succ k ih =>
    intro rp
    show rpCollect hash (k + 1) rp = _
    simp only [rpCollect, rpnext, collect]
    cases hn : pnext hash rp.permutor with
    | none => rfl
    | some vp =>
      obtain ⟨v, p'⟩ := vp
      dsimp only
      rw [ih ⟨p', rp.max2⟩]
      rfl

/-- C4 (corrected): when `max1 * max2` fits in 64 bits, the pair permutor
yields exactly `max1 * max2` pairwise-distinct pairs covering the full cross
product `[0, max1) × [0, max2)`. -/
theorem claim_C4 (max1 max2 : Nat) (key : List Nat) (hash : List Nat → Nat)
    (rp : RandomPairPermutor) (h : RandomPairPermutor.new max1 max2 key = some rp)
    (h1 : 0 < max1) (h2 : 0 < max2) (hfit : max1 * max2 ≤ 2 ^ 64) :
    (rpCollect hash (max1 * max2) rp).length = max1 * max2 ∧
    (rpCollect hash (max1 * max2) rp).Nodup ∧
    (rpCollect hash (max1 * max2) rp).toFinset
      = Finset.range max1 ×ˢ Finset.range max2 := by
  unfold RandomPairPermutor.new at h
  dsimp only at h
  cases hp : Permutor.new (max1 * max2) key with
  | none => rw [hp] at h; cases h
  | some p =>
    rw [hp] at h
    obtain rfl : (⟨p, max2⟩ : RandomPairPermutor) = rp := Option.some.inj h
    have hp' : Permutor.new_with_slice_key (max1 * max2) key = some p := hp
    obtain ⟨hfull, hperm, hnodup⟩ :=
      collect_max_eq_fullList hash (max1 * max2) key p hp'
    have hmem : ∀ v ∈ collect hash (max1 * max2) p, v < max1 * max2 := by
      intro v hv
      exact List.mem_range.mp (hperm.mem_iff.mp hv)
    have hmap : rpCollect hash (max1 * max2) ⟨p, max2⟩
        = (collect hash (max1 * max2) p).map
          (fun v => (v % 2 ^ 64 / max2, v % 2 ^ 64 % max2)) :=
      rpCollect_eq hash (max1 * max2) ⟨p, max2⟩
    have hdec : ∀ v ∈ collect hash (max1 * max2) p,
        (v % 2 ^ 64 / max2, v % 2 ^ 64 % max2) = (v / max2, v % max2) := by
      intro v hv
      have hvlt : v < 2 ^ 64 := lt_of_lt_of_le (hmem v hv) hfit
      rw [Nat.mod_eq_of_lt hvlt]
    refine ⟨?_, ?_, ?_⟩
    · rw [hmap, List.length_map, hperm.length_eq, List.length_range]
    · rw [hmap]
      apply List.Nodup.map_on ?_ hnodup
      intro x hx y hy hxy
      rw [hdec x hx, hdec y hy] at hxy
      have e1 : x / max2 = y / max2 := congrArg Prod.fst hxy
      have e2 : x % max2 = y % max2 := congrArg Prod.snd hxy
      have d1 := Nat.div_add_mod x max2
      have d2 := Nat.div_add_mod y max2
      have e3 : max2 * (x / max2) = max2 * (y / max2) := by rw [e1]
      omega
    · rw [hmap]
      ext a
      obtain ⟨i, j⟩ := a
      simp only [List.mem_toFinset, List.mem_map, Finset.mem_product, Finset.mem_range]
      constructor
      · rintro ⟨v, hv, hdv⟩
        rw [hdec v hv] at hdv
        have hvm : v < max1 * max2 := hmem v hv
        have hij : (v / max2, v % max2) = (i, j) := hdv
        have hi : v / max2 = i := congrArg Prod.fst hij
        have hj : v % max2 = j := congrArg Prod.snd hij
        constructor
        · rw [← hi]
          rw [Nat.div_lt_iff_lt_mul h2]
          calc v < max1 * max2 := hvm
            _ = max1 * max2 := rfl
        · rw [← hj]
          exact Nat.mod_lt _ h2
      · rintro ⟨hi, hj⟩
        refine ⟨i * max2 + j, ?_, ?_⟩
        · have hvm : i * max2 + j < max1 * max2 := by
            have hi1 : i + 1 ≤ max1 := hi
            calc i * max2 + j < i * max2 + max2 := by omega
              _ = (i + 1) * max2 := by ring
              _ ≤ max1 * max2 := Nat.mul_le_mul_right _ hi1
          rw [hperm.mem_iff]
          exact List.mem_range.mpr hvm
        · have hvm : i * max2 + j < max1 * max2 := by
            have hi1 : i + 1 ≤ max1 := hi
            calc i * max2 + j < i * max2 + max2 := by omega
              _ = (i + 1) * max2 := by ring
              _ ≤ max1 * max2 := Nat.mul_le_mul_right _ hi1
          have hv64 : i * max2 + j < 2 ^ 64 := lt_of_lt_of_le hvm hfit
          rw [Nat.mod_eq_of_lt hv64]
          have hdv : (i * max2 + j) / max2 = i := by
            rw [Nat.mul_comm i max2, Nat.mul_add_div h2, Nat.div_eq_of_lt hj]
            omega
          have hmv : (i * max2 + j) % max2 = j := by
            rw [Nat.mul_add_mod', Nat.mod_eq_of_lt hj]
          rw [hdv, hmv]

lemma rp6_eq : RandomPairPermutor.new 3 2 key0 = some rp6 := by
  unfold RandomPairPermutor.new Permutor.new FeistelNetwork.new
  dsimp only
  rw [show (3 * 2 : Nat) = 6 by norm_num]
  rw [new_with_slice_key_eq 6 key0 (by norm_num),
    size_eq_succ 6 2 (by norm_num) (by norm_num)]
  decide

/-- Witness for C4 at `max1 = 3`, `max2 = 2`, zero key, constant-zero hash. -/
theorem claim_C4_witness :
    (rpCollect h0 (3 * 2) rp6).length = 3 * 2 ∧
    (rpCollect h0 (3 * 2) rp6).Nodup ∧
    (rpCollect h0 (3 * 2) rp6).toFinset = Finset.range 3 ×ˢ Finset.range 2 :=
  claim_C4 3 2 key0 h0 rp6 rp6_eq (by norm_num) (by norm_num) (by norm_num)

lemma feistelRounds_h0 (fn : FeistelNetwork) (h32 : fn.rounds = 32) (lr : Nat × Nat) :
    feistelRounds h0 fn lr = lr := by
  unfold feistelRounds
  rw [h32]
  have hf : ∀ r i, round_function h0 r i fn.key fn.right_mask = 0 := by
    intro r i
    unfold round_function h0
    simp
  rw [show List.range 32 = [0, 1, 2, 3, 4, 5, 6, 7, 8, 9, 10, 11, 12, 13, 14, 15,
    16, 17, 18, 19, 20, 21, 22, 23, 24, 25, 26, 27, 28, 29, 30, 31] by decide]
  simp [hf]

lemma permute_h0 (fn : FeistelNetwork) (hwf : fn.WF) (h32 : fn.rounds = 32)
    (x : Nat) :
    FeistelNetwork.permute h0 fn x = x % 2 ^ (2 * fn.half_width) := by
  rw [permute_eq h0 fn hwf x, feistelRounds_h0 fn h32]
  dsimp only
  rw [two_mul, pow_add, Nat.mod_mul]
  ring

lemma pBig_eq : Permutor.new_with_slice_key (2 ^ 65) key0 = some pBig := by
  unfold Permutor.new_with_slice_key
  rw [new_with_slice_key_eq (2 ^ 65) key0 (by norm_num),
    size_eq_succ (2 ^ 65) 65 (by norm_num) (by norm_num)]
  decide

lemma rpBig_eq : RandomPairPermutor.new (2 ^ 63) 4 key0 = some rpBig := by
  unfold RandomPairPermutor.new Permutor.new FeistelNetwork.new
  dsimp only
  rw [show (2 ^ 63 * 4 : Nat) = 2 ^ 65 by norm_num]
  rw [new_with_slice_key_eq (2 ^ 65) key0 (by norm_num),
    size_eq_succ (2 ^ 65) 65 (by norm_num) (by norm_num)]
  decide

/-- C4 (corrected): as stated, the claim fails: with `max1 = 2 ^ 63` and
`max2 = 4` (product `2 ^ 65`, exceeding 64 bits), the `value as u64` cast in
the pair decoder truncates, and the emitted pair list contains duplicates
(shown here for the constant-zero hash instance of the opaque external
hash). -/
theorem claim_C4_counterexample :
    RandomPairPermutor.new (2 ^ 63) 4 key0 = some rpBig ∧
    ¬ (rpCollect h0 (2 ^ 63 * 4) rpBig).Nodup := by
  refine ⟨rpBig_eq, ?_⟩
  rw [show (2 ^ 63 * 4 : Nat) = 2 ^ 65 by norm_num]
  obtain ⟨hInv, hwf, hmp, hc, hv, hltW, hrest⟩ :=
    new_permutor_inv h0 (2 ^ 65) key0 pBig pBig_eq
  have hfull : fullList h0 pBig.feistel (2 ^ 65) = List.range (2 ^ 65) := by
    unfold fullList
    have hid : ∀ x ∈ List.range (2 ^ (2 * pBig.feistel.half_width)),
        FeistelNetwork.permute h0 pBig.feistel x = x := by
      intro x hx
      rw [permute_h0 pBig.feistel hwf rfl x]
      exact Nat.mod_eq_of_lt (List.mem_range.mp hx)
    rw [List.map_congr_left hid, List.map_id' _]
    exact filter_range_lt _ _ (le_of_lt hltW)
  have hcoll : collect h0 (2 ^ 65) pBig = List.range (2 ^ 65) := by
    rw [collect_take h0 (2 ^ 65) pBig hInv, hrest, hfull]
    exact List.take_of_length_le (by rw [List.length_range])
  have hpairs : rpCollect h0 (2 ^ 65) rpBig
      = (List.range (2 ^ 65)).map (fun v => (v % 2 ^ 64 / 4, v % 2 ^ 64 % 4)) := by
    rw [rpCollect_eq h0 (2 ^ 65) rpBig]
    show (collect h0 (2 ^ 65) pBig).map
      (fun v => (v % 2 ^ 64 / 4, v % 2 ^ 64 % 4)) = _
    rw [hcoll]
  rw [hpairs]
  intro hnodup
  have hinj := List.nodup_iff_injective_get.mp hnodup
  have hlen : ((List.range (2 ^ 65)).map
      (fun v => (v % 2 ^ 64 / 4, v % 2 ^ 64 % 4))).length = 2 ^ 65 := by
    rw [List.length_map, List.length_range]
  have hi0 : (0 : Nat) < ((List.range (2 ^ 65)).map
      (fun v => (v % 2 ^ 64 / 4, v % 2 ^ 64 % 4))).length := by
    rw [hlen]
    norm_num
  have hi1 : (2 ^ 64 : Nat) < ((List.range (2 ^ 65)).map
      (fun v => (v % 2 ^ 64 / 4, v % 2 ^ 64 % 4))).length := by
    rw [hlen]
    norm_num
  have e0 : ((List.range (2 ^ 65)).map
      (fun v => (v % 2 ^ 64 / 4, v % 2 ^ 64 % 4))).get ⟨0, hi0⟩ = (0, 0) := by
    rw [List.get_eq_getElem, List.getElem_map, List.getElem_range]
    show ((0 : Nat) % 2 ^ 64 / 4, (0 : Nat) % 2 ^ 64 % 4) = (0, 0)
    norm_num
  have e1 : ((List.range (2 ^ 65)).map
      (fun v => (v % 2 ^ 64 / 4, v % 2 ^ 64 % 4))).get ⟨2 ^ 64, hi1⟩ = (0, 0) := by
    rw [List.get_eq_getElem, List.getElem_map, List.getElem_range]
    show ((2 ^ 64 : Nat) % 2 ^ 64 / 4, (2 ^ 64 : Nat) % 2 ^ 64 % 4) = (0, 0)
    norm_num
  have heq := hinj (e0.trans e1.symm)
  have hval : (0 : Nat) = 2 ^ 64 := congrArg Fin.val heq
  norm_num at hval

/-! ## C8: totality and the cursor overflow at full width -/

lemma inRangeCount_le_self (hash : List Nat → Nat) (fn : FeistelNetwork)
    (max : Nat) : ∀ c, inRangeCount hash fn max c ≤ c := by
  intro c
  induction c with
  | zero => exact le_of_eq rfl
  | succ k ih =>
    rw [inRangeCount_succ]
    split_ifs <;> omega

lemma pOv_eq : Permutor.new_with_slice_key (2 ^ 128 - 1) key0 = some pOv := by
  unfold Permutor.new_with_slice_key
  rw [new_with_slice_key_eq (2 ^ 128 - 1) key0 (by norm_num),
    size_eq_succ (2 ^ 128 - 1) 127 (by norm_num) (by norm_num)]
  decide

/-- C8 (amended): for every `max < 2 ^ 126` (where the active width stays
below 128 bits) and every reachable iterator state, `permute` and the cursor
stay strictly below `2 ^ 128` (no `u128` overflow anywhere), and `next`
returns a value exactly while `values_returned < max` and the exhaustion
signal once `values_returned = max`. -/
theorem claim_C8 (max : Nat) (key : List Nat) (hash : List Nat → Nat)
    (p0 : Permutor) (k : Nat)
    (h : Permutor.new_with_slice_key max key = some p0) (hsmall : max < 2 ^ 126) :
    (∀ input, FeistelNetwork.permute hash p0.feistel input < 2 ^ 128) ∧
    (stateAfter hash k p0).current < 2 ^ 128 ∧
    (stateAfter hash k p0).values_returned ≤ max ∧
    ((stateAfter hash k p0).values_returned < max →
      ∃ v p', pnext hash (stateAfter hash k p0) = some (v, p')) ∧
    ((stateAfter hash k p0).values_returned = max →
      pnext hash (stateAfter hash k p0) = none) := by
  have hhw : p0.feistel.half_width = (Nat.size max + 1) / 2 := by
    unfold Permutor.new_with_slice_key at h
    cases hfn : FeistelNetwork.new_with_slice_key max key with
    | none => rw [hfn] at h; cases h
    | some fn =>
      rw [hfn] at h
      obtain rfl : (⟨fn, max, 0, 0⟩ : Permutor) = p0 := Option.some.inj h
      exact (new_fn_wf max key fn hfn).2.2.2.2
  have hs : Nat.size max ≤ 126 := Nat.size_le.mpr hsmall
  have hWle : 2 ^ (2 * p0.feistel.half_width) ≤ 2 ^ 126 := by
    apply Nat.pow_le_pow_right (by norm_num)
    rw [hhw]
    omega
  obtain ⟨hInv, hwf, hmp, hc, hv, hltW, hrest⟩ := new_permutor_inv hash max key p0 h
  obtain ⟨hInvq, hfq, hmq, hvq⟩ := stateAfter_spec hash k p0 hInv
  obtain ⟨hwfq, hmaxq, hcurq, hcountq⟩ := hInvq
  refine ⟨?_, ?_, ?_, ?_, ?_⟩
  · intro input
    calc FeistelNetwork.permute hash p0.feistel input
        < 2 ^ (2 * p0.feistel.half_width) := permute_lt hash p0.feistel hwf input
      _ ≤ 2 ^ 126 := hWle
      _ < 2 ^ 128 := by norm_num
  · calc (stateAfter hash k p0).current
        ≤ 2 ^ (2 * (stateAfter hash k p0).feistel.half_width) := hcurq
      _ = 2 ^ (2 * p0.feistel.half_width) := by rw [hfq]
      _ ≤ 2 ^ 126 := hWle
      _ < 2 ^ 128 := by norm_num
  · rw [hvq, hv, hmp]
    omega
  · intro hlt
    obtain ⟨v, p', hn, _⟩ := pnext_spec hash
      (2 ^ (2 * (stateAfter hash k p0).feistel.half_width)
        - (stateAfter hash k p0).current)
      (stateAfter hash k p0) rfl ⟨hwfq, hmaxq, hcurq, hcountq⟩
      (by rw [hmq, hmp]; exact hlt)
    exact ⟨v, p', hn⟩
  · intro heq
    apply pnext_none
    rw [heq, hmq, hmp]
    omega

/-- Witness for C8 at `max = 10`, zero key, constant-zero hash, three steps. -/
theorem claim_C8_witness :
    (∀ input, FeistelNetwork.permute h0 P10.feistel input < 2 ^ 128) ∧
    (stateAfter h0 3 P10).current < 2 ^ 128 ∧
    (stateAfter h0 3 P10).values_returned ≤ 10 ∧
    ((stateAfter h0 3 P10).values_returned < 10 →
      ∃ v p', pnext h0 (stateAfter h0 3 P10) = some (v, p')) ∧
    ((stateAfter h0 3 P10).values_returned = 10 →
      pnext h0 (stateAfter h0 3 P10) = none) :=
  claim_C8 10 key0 h0 P10 3 P10_eq (by norm_num)

/-- C8 (corrected): as stated, the claim fails at the largest representable
`max`.  With `max = 2 ^ 128 - 1` (width 128) there is an instance `hOv` of
the opaque external hash under which the run to exhaustion leaves the cursor
at `2 ^ 128`, one past `u128::MAX`: the final `self.current += 1` of the
Rust code overflows the `u128`. -/
theorem claim_C8_counterexample :
    Permutor.new_with_slice_key (2 ^ 128 - 1) key0 = some pOv ∧
    (stateAfter hOv (2 ^ 128 - 1) pOv).current = 2 ^ 128 := by
  refine ⟨pOv_eq, ?_⟩
  obtain ⟨hInv, hwf, hmp, hc, hv, hltW, hrest⟩ :=
    new_permutor_inv hOv (2 ^ 128 - 1) key0 pOv pOv_eq
  obtain ⟨hInvq, hfq, hmq, hvq⟩ := stateAfter_spec hOv (2 ^ 128 - 1) pOv hInv
  obtain ⟨hwfq, hmaxq, hcurq, hcountq⟩ := hInvq
  have hW : 2 * (stateAfter hOv (2 ^ 128 - 1) pOv).feistel.half_width = 128 := by
    rw [hfq]
    rfl
  have hqmax : (stateAfter hOv (2 ^ 128 - 1) pOv).max = 2 ^ 128 - 1 := by
    rw [hmq]
    rfl
  have hqvr : (stateAfter hOv (2 ^ 128 - 1) pOv).values_returned = 2 ^ 128 - 1 := by
    rw [hvq]
    show min (pOv.values_returned + (2 ^ 128 - 1)) pOv.max = 2 ^ 128 - 1
    show min (0 + (2 ^ 128 - 1)) (2 ^ 128 - 1) = 2 ^ 128 - 1
    omega
  have hcount : inRangeCount hOv (stateAfter hOv (2 ^ 128 - 1) pOv).feistel
      (stateAfter hOv (2 ^ 128 - 1) pOv).max
      (stateAfter hOv (2 ^ 128 - 1) pOv).current = 2 ^ 128 - 1 := by
    rw [← hcountq, hqvr]
  have hcur128 : (stateAfter hOv (2 ^ 128 - 1) pOv).current ≤ 2 ^ 128 := by
    rw [hW] at hcurq
    exact hcurq
  have hle := inRangeCount_le_self hOv (stateAfter hOv (2 ^ 128 - 1) pOv).feistel
    (stateAfter hOv (2 ^ 128 - 1) pOv).max
    (stateAfter hOv (2 ^ 128 - 1) pOv).current
  rcases Nat.lt_or_ge (stateAfter hOv (2 ^ 128 - 1) pOv).current (2 ^ 128)
    with hlt | hge2
  · exfalso
    have hqc : (stateAfter hOv (2 ^ 128 - 1) pOv).current = 2 ^ 128 - 1 := by omega
    have htot := inRangeCount_total hOv (stateAfter hOv (2 ^ 128 - 1) pOv).feistel
      (stateAfter hOv (2 ^ 128 - 1) pOv).max hwfq hmaxq
    have hstep := inRangeCount_succ hOv (stateAfter hOv (2 ^ 128 - 1) pOv).feistel
      (stateAfter hOv (2 ^ 128 - 1) pOv).max (2 ^ 128 - 1)
    have hpc : FeistelNetwork.permute hOv (stateAfter hOv (2 ^ 128 - 1) pOv).feistel
        (2 ^ 128 - 1) < (stateAfter hOv (2 ^ 128 - 1) pOv).max := by
      rw [hfq, hqmax]
      show FeistelNetwork.permute hOv fnOv (2 ^ 128 - 1) < 2 ^ 128 - 1
      decide
    rw [if_pos hpc] at hstep
    rw [show (2 : Nat) ^ 128 - 1 + 1 = 2 ^ 128 by omega] at hstep
    rw [hW] at htot
    rw [hqc] at hcount
    rw [hqmax] at htot hstep hcount
    omega
  · omega
